import Mathlib

/-!
Verification of the salary-analysis script (`modulo3/main.py`).

The script loads a salary CSV into a DataFrame, builds dynamic Python
enums from the distinct values of the categorical columns
(`criar_enum_dinamico`), leniently parses `MM/DD/YYYY` date strings
(`parse_date`), appends every row into the `salaries` SQLite table
(`df.to_sql` with `if_exists='append'`), and runs one grouped
aggregation (min/max/avg of `SALARY / 12` per `DESIGNATION`, ordered by
the average descending) through three paths: a literal SQL string
executed on a connection (`query_sql`), the same SQL materialized with
`pandas.read_sql_query`, and a composed ORM `select` statement (`stmt`).

The embedding below is over plain Lean data:
  * Python strings are Lean `String`s (compared code point by code
    point, as Python compares `str`, via `strLtb` on the character
    lists); the development models the ASCII fragment the dataset uses,
    so `Char.isAlphanum`/`Char.toUpper` stand for Python's `\\w` test
    and `str.upper`.
  * A raw column value is `Option String`: `none` is a pandas null
    (`NaN`/`NaT`), `some s` a value whose `str()` form is `s`.
  * A Python `dict` built by repeated `d[k] = v` assignment is an
    association list in insertion order: assigning to a present key
    updates the value in place, a fresh key is appended (`insertMembro`).
  * `SALARY` values and the SQL arithmetic on them are modelled in `ℚ`;
    the claims under check are about exact numeric identities, not
    float rounding.
-/

/-! ## Python string order

`sorted(...)` in `criar_enum_dinamico` compares strings as Python does:
lexicographically by code point. `strLtb a b` is `a < b` on the
underlying character lists; it is structural so that concrete instances
evaluate inside the kernel. -/

/-- Python's `<` on strings, on the underlying code-point lists. -/
def strLtb : List Char → List Char → Bool
  | [], [] => false
  | [], _ :: _ => true
  | _ :: _, [] => false
  | a :: as, b :: bs =>
    if a.toNat < b.toNat then true
    else if b.toNat < a.toNat then false
    else strLtb as bs

/-- Python's `<=` on strings: `a < b` or `a = b`. -/
def strLeb (a b : String) : Bool := a = b || strLtb a.data b.data

/-- Insert into a list sorted by `le`, keeping existing order on ties. -/
def insertLe {α : Type} (le : α → α → Bool) (x : α) : List α → List α
  | [] => [x]
  | y :: ys => if le x y then x :: y :: ys else y :: insertLe le x ys

/-- Insertion sort by `le`: the model of Python's `sorted` and of the
SQL `ORDER BY` (a stable comparison sort). -/
def sortLe {α : Type} (le : α → α → Bool) : List α → List α
  | [] => []
  | x :: xs => insertLe le x (sortLe le xs)

/-! ## `criar_enum_dinamico` (main.py lines 63–74)

```python
valores_unicos = sorted({str(v) for v in valores if pd.notna(v)})
membros = {}
for valor in valores_unicos:
    chave = re.sub(r"\W|^(?=\d)", "_", valor).upper()
    membros[chave] = valor
return PyEnum(nome_enum, membros)
```

The produced `PyEnum` is determined by the `membros` dict, which the
embedding returns directly as an association list (label, original
value) in insertion order. -/

/-- A word character for the regex `\W` (ASCII): alphanumeric or `_`. -/
def isWordChar (c : Char) : Bool := c.isAlphanum || c = '_'

/-- `re.sub(r"\W", "_", ·)` on the character list: each single
non-word character becomes one underscore. -/
def subW (l : List Char) : List Char :=
  l.map (fun c => if isWordChar c then c else '_')

/-- `re.sub(r"\W|^(?=\d)", "_", valor).upper()`: every non-word
character is replaced by `_`, an `_` is inserted before a leading
digit (the zero-width `^(?=\d)` match), and the result is upper-cased. -/
def chave (valor : String) : String :=
  let substituted :=
    match valor.data with
    | [] => ([] : List Char)
    | c :: cs => if c.isDigit then '_' :: subW (c :: cs) else subW (c :: cs)
  String.mk (substituted.map Char.toUpper)

/-- `sorted({str(v) for v in valores if pd.notna(v)})`: the distinct
non-null values, sorted by Python's string order. -/
def valores_unicos (valores : List (Option String)) : List String :=
  sortLe (fun a b => strLeb a b) (valores.filterMap id).dedup

/-- One `membros[chave] = valor` dict assignment: update in place when
the key is present, append otherwise. -/
def insertMembro (m : List (String × String)) (k v : String) :
    List (String × String) :=
  if m.any (fun p => p.1 = k) then
    m.map (fun p => if p.1 = k then (k, v) else p)
  else m ++ [(k, v)]

/-- The `membros` dict after the `for valor in valores_unicos` loop. -/
def membros (valores : List String) : List (String × String) :=
  valores.foldl (fun m valor => insertMembro m (chave valor) valor) []

/-- `criar_enum_dinamico` as the label → original-value mapping of the
enum it returns, in member (insertion) order. -/
def criar_enum_dinamico (valores : List (Option String)) :
    List (String × String) :=
  membros (valores_unicos valores)

/-! ## `parse_date` (main.py lines 85–97)

```python
def parse_date(date_str):
    if pd.isna(date_str):
        return None
    if isinstance(date_str, datetime):
        return date_str.date()
    try:
        return datetime.strptime(str(date_str), "%m/%d/%Y").date()
    except Exception:
        return None
```

`strptime(s, "%m/%d/%Y")` succeeds exactly when `s` is
`month "/" day "/" year` where month and day are one or two digits
(CPython compiles `%m` to `1[0-2]|0[1-9]|[1-9]` and `%d` to
`3[01]|[12]\d|0[1-9]|[1-9]`), the year is exactly four digits (`%Y` is
`\d\d\d\d`), nothing is left over, and `datetime(year, month, day)`
accepts the values (`year ≥ 1`, day within the month, leap years per
the Gregorian rule). Since no digit is `/` and the pattern's only `/`s
are the two literal separators, the match decomposes at the slashes;
`strptimeMDY` follows that decomposition. -/

/-- A calendar date as `datetime.date`: year, month, day. -/
structure PDate where
  year : Nat
  month : Nat
  day : Nat
deriving DecidableEq

/-- A `datetime.datetime`: a date plus a time of day that `.date()`
drops. -/
structure PyDatetime where
  date : PDate
  hour : Nat
  minute : Nat
  second : Nat
deriving DecidableEq

/-- An input to `parse_date`: a pandas null (`NaN`/`NaT`), a
`datetime` instance, or a value whose `str()` form is the given
string. -/
inductive PdValue where
  | null : PdValue
  | dt : PyDatetime → PdValue
  | str : String → PdValue

/-- The numeric value of a digit string (most significant first). -/
def digitsToNat (l : List Char) : Nat :=
  l.foldl (fun n c => 10 * n + (c.toNat - 48)) 0

/-- The Gregorian leap-year rule `datetime` uses. -/
def isLeap (y : Nat) : Bool := y % 4 = 0 && (y % 100 != 0 || y % 400 = 0)

/-- Days in a month, as validated by `datetime(year, month, day)`. -/
def daysInMonth (y m : Nat) : Nat :=
  if m = 2 then (if isLeap y then 29 else 28)
  else if m = 4 ∨ m = 6 ∨ m = 9 ∨ m = 11 then 30
  else 31

/-- Split a character list at every `/`: the first field and the list
of the remaining fields. -/
def splitSlash : List Char → List Char × List (List Char)
  | [] => ([], [])
  | c :: rest =>
    if c = '/' then ([], (splitSlash rest).1 :: (splitSlash rest).2)
    else (c :: (splitSlash rest).1, (splitSlash rest).2)

/-- `datetime.strptime(s, "%m/%d/%Y").date()` as a total function:
`some` of the date on the exact-format match, `none` when the pattern
or the `datetime` constructor rejects (the `except` branch). -/
def strptimeMDY (l : List Char) : Option PDate :=
  let r := splitSlash l
  match r.2 with
  | [pd, py] =>
    let pm := r.1
    if pm.all Char.isDigit = true ∧ (pm.length = 1 ∨ pm.length = 2)
        ∧ pd.all Char.isDigit = true ∧ (pd.length = 1 ∨ pd.length = 2)
        ∧ py.all Char.isDigit = true ∧ py.length = 4 then
      let m := digitsToNat pm
      let d := digitsToNat pd
      let y := digitsToNat py
      if 1 ≤ m ∧ m ≤ 12 ∧ 1 ≤ d ∧ d ≤ 31 ∧ 1 ≤ y ∧ d ≤ daysInMonth y m
      then some ⟨y, m, d⟩ else none
    else none
  | _ => none

/-- `parse_date`: `None` on nulls, `.date()` on `datetime` instances,
lenient `strptime` on everything else. -/
def parse_date : PdValue → Option PDate
  | .null => none
  | .dt x => some x.date
  | .str s => strptimeMDY s.data

/-- The spec-facing reading of "a string in month/day/year format":
`s` is `pm / pd / py` with `pm`, `pd` one or two digits, `py` four
digits, whose values are a valid calendar date `y-m-d`. -/
def MDYFormat (s : String) (y m d : Nat) : Prop :=
  ∃ pm pd py : List Char,
    s.data = pm ++ '/' :: (pd ++ '/' :: py)
    ∧ pm.all Char.isDigit = true ∧ (pm.length = 1 ∨ pm.length = 2)
    ∧ pd.all Char.isDigit = true ∧ (pd.length = 1 ∨ pd.length = 2)
    ∧ py.all Char.isDigit = true ∧ py.length = 4
    ∧ digitsToNat pm = m ∧ digitsToNat pd = d ∧ digitsToNat py = y
    ∧ 1 ≤ m ∧ m ≤ 12 ∧ 1 ≤ d ∧ d ≤ daysInMonth y m ∧ 1 ≤ y

/-! ## The persisted table and `df.to_sql` (main.py lines 100–179)

`SalaryRecord` maps the CSV columns one-to-one onto the `salaries`
table (the synthetic autoincrement `id` is generated by the store and
carries no information from the data, so rows are modelled without
it). `df.to_sql(..., if_exists='append', index=False)` appends every
DataFrame row after the rows already in the table. -/

/-- One row of the `salaries` table, mirroring `SalaryRecord`:
`FIRST NAME`, `LAST NAME`, `SEX`, `DOJ`, `CURRENT DATE`,
`DESIGNATION`, `AGE`, `SALARY`, `UNIT`, `LEAVES USED`,
`LEAVES REMAINING`, `RATINGS`, `PAST EXP`. -/
structure SalaryRow where
  first_name : String
  last_name : String
  sex : String
  doj : Option PDate
  current_date : Option PDate
  designation : String
  age : Option Int
  salary : ℚ
  unit : String
  leaves_used : Option Int
  leaves_remaining : Option Int
  ratings : Option ℚ
  past_exp : Option ℚ
deriving DecidableEq

/-- `df.to_sql(name="salaries", con=engine, if_exists="append",
index=False)`: every DataFrame row becomes a new record after the
existing ones; nothing is checked against the rows already stored. -/
def to_sql (store df : List SalaryRow) : List SalaryRow := store ++ df

/-! ## The aggregation, three ways (main.py lines 193–250)

All three paths compute, per distinct `DESIGNATION`,
`MIN("SALARY" / 12.0)`, `MAX("SALARY" / 12.0)`, `AVG("SALARY" / 12.0)`,
ordered by the average descending.
  * `query_sql` (lines 193–202) is the literal SQL string, executed on
    `engine.connect()` (path A);
  * `pandas.read_sql_query(query_sql, conn)` (lines 218–219) runs the
    same string and materializes the result rows into a DataFrame
    (path B, `read_sql_query_rows`);
  * `stmt` (lines 229–238) composes `select(min/max/avg of
    SalaryRecord.salary / 12.0).group_by(designation)` and orders by
    the separately composed expression
    `func.avg(SalaryRecord.salary / 12.0).desc()` (path C).
SQL groups are the distinct `DESIGNATION` values, each aggregating the
rows that carry it; `ORDER BY ... DESC` is a comparison sort on the
(rational-valued) key. -/

/-- One result row of the aggregation, as the query aliases name it. -/
structure AggRow where
  designation : String
  min_monthly_salary : ℚ
  max_monthly_salary : ℚ
  avg_monthly_salary : ℚ
deriving DecidableEq

/-- The monthly salary expression `"SALARY" / 12.0` of one row. -/
def monthly (r : SalaryRow) : ℚ := r.salary / 12

/-- The `GROUP BY "DESIGNATION"` keys: the distinct designations of
the table. -/
def groupKeys (t : List SalaryRow) : List String :=
  (t.map (fun r => r.designation)).dedup

/-- The rows of one `GROUP BY` group. -/
def groupOf (t : List SalaryRow) (d : String) : List SalaryRow :=
  t.filter (fun r => r.designation = d)

/-- SQL `MIN` over a group's values (groups are never empty; the `[]`
case is junk). -/
def sqlMin : List ℚ → ℚ
  | [] => 0
  | x :: xs => xs.foldl min x

/-- SQL `MAX` over a group's values. -/
def sqlMax : List ℚ → ℚ
  | [] => 0
  | x :: xs => xs.foldl max x

/-- SQL `AVG` over a group's values: sum divided by count. -/
def sqlAvg (l : List ℚ) : ℚ := l.sum / l.length

/-- The `SELECT` clause shared by the three paths: the aggregates of
one group. -/
def aggOf (t : List SalaryRow) (d : String) : AggRow :=
  let ms := (groupOf t d).map monthly
  ⟨d, sqlMin ms, sqlMax ms, sqlAvg ms⟩

/-- Path A, `query_sql` on `engine.connect()`: aggregate every group,
then `ORDER BY avg_monthly_salary DESC` on the result column. -/
def query_sql_rows (t : List SalaryRow) : List AggRow :=
  sortLe (fun a b => b.avg_monthly_salary ≤ a.avg_monthly_salary)
    ((groupKeys t).map (aggOf t))

/-- Path B, `pandas.read_sql_query(query_sql, conn)`: the same SQL on
the same connection, its result rows materialized in order as
`(designation, min, max, avg)` tuples. -/
def read_sql_query_rows (t : List SalaryRow) : List (String × ℚ × ℚ × ℚ) :=
  (query_sql_rows t).map
    (fun r => (r.designation, r.min_monthly_salary, r.max_monthly_salary,
      r.avg_monthly_salary))

/-- Path C, the ORM `stmt`: `ORDER BY` is the composed expression
`func.avg(SalaryRecord.salary / 12.0).desc()`, a sort of the groups by
that aggregate, and the `SELECT` clause is applied to each group. -/
def stmt_rows (t : List SalaryRow) : List AggRow :=
  (sortLe
      (fun d1 d2 =>
        sqlAvg ((groupOf t d2).map (fun r => r.salary / 12))
          ≤ sqlAvg ((groupOf t d1).map (fun r => r.salary / 12)))
      (groupKeys t)).map
    (fun d =>
      ⟨d, sqlMin ((groupOf t d).map (fun r => r.salary / 12)),
        sqlMax ((groupOf t d).map (fun r => r.salary / 12)),
        sqlAvg ((groupOf t d).map (fun r => r.salary / 12))⟩)

/-! ## Bridges between `Char` predicates and code points -/

/-- Order on `UInt32` is the order of the underlying numbers. -/
theorem uint32_le_iff (a b : UInt32) : a ≤ b ↔ a.toNat ≤ b.toNat := by
  rw [UInt32.le_def, BitVec.le_def]
  exact Iff.rfl

/-- Characters with equal code points are equal. -/
theorem char_toNat_inj {a b : Char} (h : a.toNat = b.toNat) : a = b :=
  Char.ext (UInt32.toNat.inj h)

/-- `Char.ofNat` below the surrogate range keeps the code point. -/
theorem char_toNat_ofNat_small {n : Nat} (h : n < 55296) :
    (Char.ofNat n).toNat = n := by
  rw [Char.ofNat, dif_pos (Or.inl (show n < 55296 from h))]
  rfl

/-- `Char.isDigit` is the code-point range 48–57. -/
theorem isDigit_iff (c : Char) :
    c.isDigit = true ↔ 48 ≤ c.toNat ∧ c.toNat ≤ 57 := by
  have h48 : (48 : UInt32).toNat = 48 := rfl
  have h57 : (57 : UInt32).toNat = 57 := rfl
  simp only [Char.isDigit, Bool.and_eq_true, decide_eq_true_eq, ge_iff_le,
    uint32_le_iff, h48, h57]
  exact Iff.rfl

/-- `Char.isAlphanum` is the three ASCII ranges A–Z, a–z, 0–9. -/
theorem isAlphanum_iff (c : Char) :
    c.isAlphanum = true ↔
      (65 ≤ c.toNat ∧ c.toNat ≤ 90) ∨ (97 ≤ c.toNat ∧ c.toNat ≤ 122)
        ∨ (48 ≤ c.toNat ∧ c.toNat ≤ 57) := by
  have h65 : (65 : UInt32).toNat = 65 := rfl
  have h90 : (90 : UInt32).toNat = 90 := rfl
  have h97 : (97 : UInt32).toNat = 97 := rfl
  have h122 : (122 : UInt32).toNat = 122 := rfl
  have h48 : (48 : UInt32).toNat = 48 := rfl
  have h57 : (57 : UInt32).toNat = 57 := rfl
  simp only [Char.isAlphanum, Char.isAlpha, Char.isUpper, Char.isLower,
    Char.isDigit, Bool.or_eq_true, Bool.and_eq_true, decide_eq_true_eq,
    ge_iff_le, uint32_le_iff, h65, h90, h97, h122, h48, h57]
  tauto

/-- Upper-casing a lower-case letter subtracts 32 from the code point. -/
theorem toUpper_of_lower (c : Char) (h : 97 ≤ c.toNat ∧ c.toNat ≤ 122) :
    c.toUpper.toNat = c.toNat - 32 := by
  rw [Char.toUpper]
  simp only [ge_iff_le]
  rw [if_pos ⟨h.1, h.2⟩, char_toNat_ofNat_small (by omega)]

/-- Upper-casing leaves any non-lower-case character unchanged. -/
theorem toUpper_of_not_lower (c : Char)
    (h : ¬(97 ≤ c.toNat ∧ c.toNat ≤ 122)) : c.toUpper = c := by
  rw [Char.toUpper]
  simp only [ge_iff_le]
  rw [if_neg h]

/-- A digit character is not a slash (`'/'` is code point 47). -/
theorem isDigit_ne_slash {c : Char} (h : c.isDigit = true) : c ≠ '/' := by
  intro he
  have := (isDigit_iff c).1 h
  rw [he] at this
  have h47 : ('/' : Char).toNat = 47 := rfl
  omega

/-! ## Order facts about the Python string comparison -/

/-- Unfolding equation for `strLtb` on two nonempty lists. -/
theorem strLtb_cons_cons (x y : Char) (xs ys : List Char) :
    strLtb (x :: xs) (y :: ys) =
      if x.toNat < y.toNat then true
      else if y.toNat < x.toNat then false
      else strLtb xs ys := rfl

/-- `strLtb` is transitive. -/
theorem strLtb_trans {a b c : List Char} (h1 : strLtb a b = true)
    (h2 : strLtb b c = true) : strLtb a c = true := by
  induction a generalizing b c with
  | nil =>
    cases b with
    | nil => simp [strLtb] at h1
    | cons y ys =>
      cases c with
      | nil => simp [strLtb] at h2
      | cons z zs => simp [strLtb]
  | cons x xs ih =>
    cases b with
    | nil => simp [strLtb] at h1
    | cons y ys =>
      cases c with
      | nil => simp [strLtb] at h2
      | cons z zs =>
        rw [strLtb_cons_cons] at h1 h2 ⊢
        split_ifs at h1 h2 ⊢ <;> first | rfl | omega | exact ih h1 h2 |
          simp_all

/-- `strLtb` never holds both ways. -/
theorem strLtb_asymm {a b : List Char} (h : strLtb a b = true) :
    strLtb b a = false := by
  induction a generalizing b with
  | nil =>
    cases b with
    | nil => simp [strLtb] at h
    | cons y ys => simp [strLtb]
  | cons x xs ih =>
    cases b with
    | nil => simp [strLtb] at h
    | cons y ys =>
      rw [strLtb_cons_cons] at h ⊢
      split_ifs at h ⊢ <;> first | rfl | omega | exact ih h | simp_all

/-- Two lists neither of which is below the other are equal. -/
theorem strLtb_connex {a b : List Char} (h1 : strLtb a b = false)
    (h2 : strLtb b a = false) : a = b := by
  induction a generalizing b with
  | nil =>
    cases b with
    | nil => rfl
    | cons y ys => simp [strLtb] at h1
  | cons x xs ih =>
    cases b with
    | nil => simp [strLtb] at h2
    | cons y ys =>
      rw [strLtb_cons_cons] at h1 h2
      by_cases hxy : x.toNat < y.toNat
      · rw [if_pos hxy] at h1
        simp at h1
      · by_cases hyx : y.toNat < x.toNat
        · rw [if_pos hyx] at h2
          simp at h2
        · rw [if_neg hxy, if_neg hyx] at h1
          rw [if_neg hyx, if_neg hxy] at h2
          have hx : x = y := char_toNat_inj (by omega)
          rw [hx, ih h1 h2]

/-- `strLeb` is total. -/
theorem strLeb_total (a b : String) :
    strLeb a b = true ∨ strLeb b a = true := by
  by_cases hab : a = b
  · left
    simp [strLeb, hab]
  · rcases hlt : strLtb a.data b.data with _ | _
    · rcases hlt' : strLtb b.data a.data with _ | _
      · exact absurd (congrArg String.mk (strLtb_connex hlt hlt')) hab
      · right
        simp [strLeb, hlt']
    · left
      simp [strLeb, hlt]

/-- `strLeb` is antisymmetric. -/
theorem strLeb_antisymm {a b : String} (h1 : strLeb a b = true)
    (h2 : strLeb b a = true) : a = b := by
  by_cases hab : a = b
  · exact hab
  · have hba : ¬b = a := fun h => hab h.symm
    simp only [strLeb, hab, hba, decide_False, Bool.false_or] at h1 h2
    have := strLtb_asymm h1
    rw [h2] at this
    cases this

/-- `strLeb` is transitive. -/
theorem strLeb_trans {a b c : String} (h1 : strLeb a b = true)
    (h2 : strLeb b c = true) : strLeb a c = true := by
  by_cases hab : a = b
  · rwa [hab]
  · by_cases hbc : b = c
    · rwa [← hbc]
    · simp only [strLeb, hab, hbc, decide_False, Bool.false_or] at h1 h2
      simp only [strLeb, Bool.or_eq_true, decide_eq_true_eq]
      exact Or.inr (strLtb_trans h1 h2)

/-! ## The insertion sort: permutation, sortedness, naturality -/

/-- Inserting is a permutation of consing. -/
theorem insertLe_perm {α : Type} (le : α → α → Bool) (x : α) :
    ∀ l : List α, List.Perm (insertLe le x l) (x :: l)
  | [] => List.Perm.refl _
  | y :: ys => by
    rw [insertLe]
    split_ifs
    · exact List.Perm.refl _
    · exact ((insertLe_perm le x ys).cons y).trans (List.Perm.swap x y ys)

/-- Sorting is a permutation. -/
theorem sortLe_perm {α : Type} (le : α → α → Bool) :
    ∀ l : List α, List.Perm (sortLe le l) l
  | [] => List.Perm.refl _
  | x :: xs =>
    (insertLe_perm le x (sortLe le xs)).trans ((sortLe_perm le xs).cons x)

/-- Inserting into a `le`-pairwise list keeps it pairwise, for a total
transitive `le`. -/
theorem insertLe_pairwise {α : Type} {le : α → α → Bool}
    (htot : ∀ a b, le a b = true ∨ le b a = true)
    (htrans : ∀ a b c, le a b = true → le b c = true → le a c = true)
    (x : α) :
    ∀ l : List α, l.Pairwise (fun a b => le a b = true) →
      (insertLe le x l).Pairwise (fun a b => le a b = true)
  | [], _ => List.Pairwise.cons (by simp) List.Pairwise.nil
  | y :: ys, h => by
    rw [insertLe]
    rcases List.pairwise_cons.1 h with ⟨hy, hys⟩
    split_ifs with hxy
    · refine List.Pairwise.cons ?_ h
      intro z hz
      rcases List.mem_cons.1 hz with rfl | hz
      · exact hxy
      · exact htrans x y z hxy (hy z hz)
    · have hyx : le y x = true := (htot x y).resolve_left
        (fun h' => hxy h')
      refine List.Pairwise.cons ?_ (insertLe_pairwise htot htrans x ys hys)
      intro z hz
      rcases List.mem_cons.1 ((insertLe_perm le x ys).mem_iff.1 hz)
        with rfl | hz
      · exact hyx
      · exact hy z hz

/-- The sort output is pairwise `le`, for a total transitive `le`. -/
theorem sortLe_pairwise {α : Type} {le : α → α → Bool}
    (htot : ∀ a b, le a b = true ∨ le b a = true)
    (htrans : ∀ a b c, le a b = true → le b c = true → le a c = true) :
    ∀ l : List α, (sortLe le l).Pairwise (fun a b => le a b = true)
  | [] => List.Pairwise.nil
  | x :: xs =>
    insertLe_pairwise htot htrans x (sortLe le xs)
      (sortLe_pairwise htot htrans xs)

/-- Mapping commutes with inserting when `f` turns one comparison into
the other. -/
theorem insertLe_map {α β : Type} (f : α → β) (le1 : α → α → Bool)
    (le2 : β → β → Bool) (hc : ∀ a b, le2 (f a) (f b) = le1 a b) (x : α) :
    ∀ l : List α,
      (insertLe le1 x l).map f = insertLe le2 (f x) (l.map f)
  | [] => rfl
  | y :: ys => by
    rw [insertLe, List.map_cons, insertLe, hc]
    split_ifs
    · rfl
    · rw [List.map_cons, insertLe_map f le1 le2 hc x ys]

/-- Mapping commutes with sorting when `f` turns one comparison into
the other. -/
theorem sortLe_map {α β : Type} (f : α → β) (le1 : α → α → Bool)
    (le2 : β → β → Bool) (hc : ∀ a b, le2 (f a) (f b) = le1 a b) :
    ∀ l : List α, (sortLe le1 l).map f = sortLe le2 (l.map f)
  | [] => rfl
  | x :: xs => by
    rw [sortLe, List.map_cons, sortLe, ← sortLe_map f le1 le2 hc xs,
      insertLe_map f le1 le2 hc]

/-! ## Facts about `valores_unicos` -/

/-- Membership in `valores_unicos` is being a non-null value of the
column. -/
theorem mem_valores_unicos {valores : List (Option String)} {s : String} :
    s ∈ valores_unicos valores ↔ some s ∈ valores := by
  rw [valores_unicos, (sortLe_perm _ _).mem_iff, List.mem_dedup,
    List.mem_filterMap]
  constructor
  · rintro ⟨a, ha, hid⟩
    rw [show id a = a from rfl] at hid
    rwa [hid] at ha
  · intro h
    exact ⟨some s, h, rfl⟩

/-- `valores_unicos` has no duplicates. -/
theorem valores_unicos_nodup (valores : List (Option String)) :
    (valores_unicos valores).Nodup :=
  ((sortLe_perm _ _).nodup_iff).2 (List.nodup_dedup _)

/-- `valores_unicos` is sorted by the Python string order. -/
theorem valores_unicos_sorted (valores : List (Option String)) :
    (valores_unicos valores).Pairwise (fun a b => strLeb a b = true) :=
  sortLe_pairwise (fun a b => strLeb_total a b)
    (fun _ _ _ h1 h2 => strLeb_trans h1 h2) _

/-- `valores_unicos` depends only on which non-null values occur, not
on their order or multiplicity: the sorted duplicate-free list of a
set of strings is unique. -/
theorem valores_unicos_ext {xs ys : List (Option String)}
    (h : ∀ s : String, some s ∈ xs ↔ some s ∈ ys) :
    valores_unicos xs = valores_unicos ys := by
  refine @List.eq_of_perm_of_sorted String (fun a b => strLeb a b = true)
    ⟨fun a b h1 h2 => strLeb_antisymm h1 h2⟩ _ _ ?_ ?_ ?_
  · exact (List.perm_ext_iff_of_nodup (valores_unicos_nodup xs)
      (valores_unicos_nodup ys)).2
      (fun s => by rw [mem_valores_unicos, mem_valores_unicos, h s])
  · exact valores_unicos_sorted xs
  · exact valores_unicos_sorted ys

/-! ## Lookup in the `membros` dict -/

/-- After `membros[k] = v`, looking up `k` finds `(k, v)`. -/
theorem find?_insertMembro_self (m : List (String × String))
    (k v : String) :
    (insertMembro m k v).find? (fun p => p.1 = k) = some (k, v) := by
  rw [insertMembro]
  split_ifs with hany
  · induction m with
    | nil => simp at hany
    | cons p ps ih =>
      rw [List.map_cons]
      by_cases hp : p.1 = k
      · rw [if_pos hp]
        exact List.find?_cons_of_pos _ (by simp)
      · rw [if_neg hp]
        rw [List.find?_cons_of_neg _ (by simp [hp])]
        rw [List.any_cons] at hany
        simp only [hp, decide_False, Bool.false_or] at hany
        exact ih hany
  · induction m with
    | nil => exact List.find?_cons_of_pos _ (by simp)
    | cons p ps ih =>
      rw [List.any_cons, Bool.or_eq_true, not_or] at hany
      rw [List.cons_append,
        List.find?_cons_of_neg _ (by simpa using hany.1)]
      exact ih hany.2

/-- Updating the entries at key `k` in place does not change lookups
at another key. -/
theorem find?_map_update_ne (k v k' : String) (h : k' ≠ k) :
    ∀ ps : List (String × String),
      (ps.map (fun p => if p.1 = k then (k, v) else p)).find?
          (fun p => p.1 = k')
        = ps.find? (fun p => p.1 = k')
  | [] => rfl
  | p :: ps => by
    rw [List.map_cons]
    by_cases hp : p.1 = k
    · rw [if_pos hp,
        List.find?_cons_of_neg _
          (by simp only [decide_eq_true_eq]; exact fun he => h he.symm),
        List.find?_cons_of_neg _
          (by simp only [decide_eq_true_eq, hp]
              exact fun he => h he.symm)]
      exact find?_map_update_ne k v k' h ps
    · rw [if_neg hp]
      by_cases hp' : p.1 = k'
      · rw [List.find?_cons_of_pos _ (by simp [hp']),
          List.find?_cons_of_pos _ (by simp [hp'])]
      · rw [List.find?_cons_of_neg _ (by simp [hp']),
          List.find?_cons_of_neg _ (by simp [hp'])]
        exact find?_map_update_ne k v k' h ps

/-- Appending a fresh entry with key `k` does not change lookups at
another key. -/
theorem find?_append_single_ne (k v k' : String) (h : k' ≠ k) :
    ∀ ps : List (String × String),
      (ps ++ [(k, v)]).find? (fun p => p.1 = k')
        = ps.find? (fun p => p.1 = k')
  | [] => by
    rw [List.nil_append,
      List.find?_cons_of_neg _
        (by simp only [decide_eq_true_eq]; exact fun he => h he.symm)]
  | p :: ps => by
    by_cases hp' : p.1 = k'
    · rw [List.cons_append, List.find?_cons_of_pos _ (by simp [hp']),
        List.find?_cons_of_pos _ (by simp [hp'])]
    · rw [List.cons_append, List.find?_cons_of_neg _ (by simp [hp']),
        List.find?_cons_of_neg _ (by simp [hp'])]
      exact find?_append_single_ne k v k' h ps

/-- After `membros[k] = v`, looking up a different key is unchanged. -/
theorem find?_insertMembro_ne (m : List (String × String))
    (k v k' : String) (h : k' ≠ k) :
    (insertMembro m k v).find? (fun p => p.1 = k')
      = m.find? (fun p => p.1 = k') := by
  rw [insertMembro]
  split_ifs with hany
  · exact find?_map_update_ne k v k' h m
  · exact find?_append_single_ne k v k' h m

/-- Lookup after the whole `for valor in valores_unicos` loop: key `k`
holds the last processed value whose label is `k`; with no such value
the accumulator's entry is untouched. -/
theorem find?_membros_loop (k : String) :
    ∀ (l : List String) (acc : List (String × String)),
      (List.foldl (fun m valor => insertMembro m (chave valor) valor) acc
          l).find? (fun p => p.1 = k)
        = ((l.filter (fun v => chave v = k)).getLast?.elim
            (acc.find? (fun p => p.1 = k)) (fun v => some (k, v)))
  | [], acc => by simp
  | x :: xs, acc => by
    rw [List.foldl_cons,
      find?_membros_loop k xs (insertMembro acc (chave x) x)]
    by_cases hc : chave x = k
    · rw [List.filter_cons_of_pos (by simpa using hc)]
      cases hh : xs.filter (fun v => decide (chave v = k)) with
      | nil =>
        simp only [List.getLast?_singleton, List.getLast?_nil,
          Option.elim]
        rw [hc]
        exact find?_insertMembro_self acc k x
      | cons a as =>
        rw [List.getLast?_cons_cons]
        obtain ⟨v, hv⟩ := Option.isSome_iff_exists.1
          (List.getLast?_isSome.2 (List.cons_ne_nil a as))
        rw [hv]
        rfl
    · rw [List.filter_cons_of_neg (by simpa using hc),
        find?_insertMembro_ne acc (chave x) x k (fun he => hc he.symm)]

/-! ## Spec-side label transformations

`spec_label` renders the spec sentence "replacing every run of
consecutive non-alphanumeric characters (and any leading digit) with a
single underscore and then upper-casing" word for word, to be compared
with `chave`. `amended_label` renders the amended sentence: each
single non-word character becomes one underscore (a run of `k` of them
becomes `k` underscores), a leading digit gets an underscore inserted
before it, and the result is upper-cased. -/

/-- Replace runs of non-alphanumeric characters by one `_`: the flag
records being inside such a run. -/
def collapseRunsB : Bool → List Char → List Char
  | _, [] => []
  | inRun, c :: cs =>
    if c.isAlphanum then c :: collapseRunsB false cs
    else if inRun then collapseRunsB true cs
    else '_' :: collapseRunsB true cs

/-- Collapse every run of non-alphanumeric characters to a single
underscore. -/
def collapseRuns (l : List Char) : List Char := collapseRunsB false l

/-- The label transformation as the spec sentence describes it. -/
def spec_label (valor : String) : String :=
  let base :=
    match valor.data with
    | [] => ([] : List Char)
    | c :: cs => if c.isDigit then '_' :: collapseRuns cs
      else collapseRuns (c :: cs)
  String.mk (base.map Char.toUpper)

/-- The per-character step of the amended description: a word
character is upper-cased, any other single character becomes one
underscore. -/
def amendedCore : List Char → List Char
  | [] => []
  | c :: cs =>
    (if c.isAlphanum || c = '_' then c.toUpper else '_') :: amendedCore cs

/-- The label transformation as the amended sentence describes it. -/
def amended_label (valor : String) : String :=
  match valor.data with
  | [] => ""
  | c :: cs =>
    if c.isDigit then String.mk ('_' :: amendedCore (c :: cs))
    else String.mk (amendedCore (c :: cs))

/-- First character class of the identifier pattern: `[A-Z_]`. -/
def isLabelStart (c : Char) : Bool :=
  (65 ≤ c.toNat ∧ c.toNat ≤ 90) || c = '_'

/-- Later character class of the identifier pattern: `[A-Z0-9_]`. -/
def isLabelChar (c : Char) : Bool :=
  isLabelStart c || (48 ≤ c.toNat ∧ c.toNat ≤ 57)

/-- The regex `[A-Z_][A-Z0-9_]*` as a whole-string matcher. -/
def matches_ident (s : String) : Bool :=
  match s.data with
  | [] => false
  | c :: cs => isLabelStart c && cs.all isLabelChar

/-- The amended per-character step agrees with `chave`'s substitution
followed by upper-casing. -/
theorem amendedCore_eq : ∀ l : List Char,
    amendedCore l = (subW l).map Char.toUpper
  | [] => rfl
  | c :: cs => by
    rw [amendedCore,
      show subW (c :: cs)
        = (if isWordChar c then c else '_') :: subW cs from rfl,
      List.map_cons, amendedCore_eq cs]
    by_cases h : isWordChar c = true
    · rw [if_pos (show (c.isAlphanum || c = '_') = true from h), if_pos h]
    · rw [if_neg (show ¬(c.isAlphanum || c = '_') = true from h), if_neg h,
        show Char.toUpper '_' = '_' from by decide]

/-- `chave` is exactly the amended transformation. -/
theorem amended_label_eq (valor : String) :
    chave valor = amended_label valor := by
  rw [chave, amended_label]
  cases hd : valor.data with
  | nil => rfl
  | cons c cs =>
    by_cases h : c.isDigit
    · simp [h, amendedCore_eq, show Char.toUpper '_' = '_' from by decide]
    · simp [h, amendedCore_eq]

/-- Upper-casing a word character lands in `[A-Z0-9_]`. -/
theorem isLabelChar_toUpper {c : Char} (h : isWordChar c = true) :
    isLabelChar c.toUpper = true := by
  rw [isWordChar, Bool.or_eq_true] at h
  rcases h with h | h
  · rcases (isAlphanum_iff c).1 h with hu | hl | hd
    · rw [toUpper_of_not_lower c (by omega)]
      simp only [isLabelChar, isLabelStart, Bool.or_eq_true,
        decide_eq_true_eq]
      exact Or.inl (Or.inl (by omega))
    · have hup := toUpper_of_lower c hl
      simp only [isLabelChar, isLabelStart, Bool.or_eq_true,
        decide_eq_true_eq]
      exact Or.inl (Or.inl (by omega))
    · rw [toUpper_of_not_lower c (by omega)]
      simp only [isLabelChar, isLabelStart, Bool.or_eq_true,
        decide_eq_true_eq]
      exact Or.inr (by omega)
  · rw [show c = '_' from by simpa using h]
    decide

/-- Every character of the substituted-and-upper-cased body is in
`[A-Z0-9_]`. -/
theorem all_subW_toUpper (l : List Char) :
    ((subW l).map Char.toUpper).all isLabelChar = true := by
  rw [List.all_eq_true]
  intro x hx
  rw [List.mem_map] at hx
  obtain ⟨y, hy, rfl⟩ := hx
  rw [subW, List.mem_map] at hy
  obtain ⟨c, _, rfl⟩ := hy
  by_cases h : isWordChar c = true
  · rw [if_pos h]
    exact isLabelChar_toUpper h
  · rw [if_neg h]
    decide

/-- Upper-casing a non-digit word character lands in `[A-Z_]`. -/
theorem isLabelStart_toUpper {c : Char} (hw : isWordChar c = true)
    (hd : c.isDigit = false) : isLabelStart c.toUpper = true := by
  rw [isWordChar, Bool.or_eq_true] at hw
  rcases hw with h | h
  · rcases (isAlphanum_iff c).1 h with hu | hl | hdig
    · rw [toUpper_of_not_lower c (by omega)]
      simp only [isLabelStart, Bool.or_eq_true, decide_eq_true_eq]
      exact Or.inl (by omega)
    · have hup := toUpper_of_lower c hl
      simp only [isLabelStart, Bool.or_eq_true, decide_eq_true_eq]
      exact Or.inl (by omega)
    · have : c.isDigit = true := (isDigit_iff c).2 hdig
      rw [hd] at this
      cases this
  · rw [show c = '_' from by simpa using h]
    decide

/-! ## Claims about the domain inference -/

/-- C3, counterexample: the claim's transformation collapses a run of
non-alphanumeric characters to a single underscore, but the code's
`re.sub(r"\W", "_", ...)` replaces each such character separately:
on the raw value `"a--b"` the code produces label `A__B`, the claimed
transformation `A_B`. -/
theorem chave_not_run_collapsing :
    criar_enum_dinamico [some "a--b"] = [("A__B", "a--b")]
      ∧ spec_label "a--b" = "A_B"
      ∧ chave "a--b" ≠ spec_label "a--b" :=
  ⟨by decide, by decide, by decide⟩

/-- C3 (amended): domain inference collects the distinct non-null
values as strings, sorts them, and maps each to the label obtained by
replacing each single non-word character (anything other than a
letter, digit or underscore) with one underscore — a run of `k` such
characters yields `k` underscores — inserting an underscore before a
leading digit (which is kept), and upper-casing the result. -/
theorem criar_enum_dinamico_labelling :
    (∀ valores : List (Option String),
        criar_enum_dinamico valores
          = (valores_unicos valores).foldl
              (fun m v => insertMembro m (amended_label v) v) [])
      ∧ (∀ valor : String, chave valor = amended_label valor) := by
  constructor
  · intro valores
    rw [criar_enum_dinamico, membros]
    congr 1
    funext m v
    rw [amended_label_eq]
  · exact amended_label_eq

/-- C5: domain inference is deterministic and idempotent — it depends
only on which non-null values the column holds (so a rerun on the
same column, whatever order Python's set iteration yields, rebuilds
the identical ordered label-to-value mapping). -/
theorem criar_enum_dinamico_idempotente :
    (∀ valores : List (Option String),
        criar_enum_dinamico valores = criar_enum_dinamico valores)
      ∧ (∀ xs ys : List (Option String),
          (∀ s : String, some s ∈ xs ↔ some s ∈ ys) →
            criar_enum_dinamico xs = criar_enum_dinamico ys)
      ∧ criar_enum_dinamico [some "b", none, some "a", some "b"]
          = criar_enum_dinamico [some "a", some "b"] := by
  refine ⟨fun _ => rfl, ?_, by decide⟩
  intro xs ys h
  rw [criar_enum_dinamico, criar_enum_dinamico, valores_unicos_ext h]

/-- C6, counterexample: the empty string is a possible non-null raw
value, and its label is the empty string, which does not match
`[A-Z_][A-Z0-9_]*` (the pattern needs at least one character). -/
theorem chave_empty_label_cex :
    chave "" = "" ∧ matches_ident (chave "") = false
      ∧ criar_enum_dinamico [some ""] = [("", "")] :=
  ⟨by decide, by decide, by decide⟩

/-- C6 (amended): for every non-null, non-empty raw value the
canonical label matches `[A-Z_][A-Z0-9_]*`. -/
theorem chave_matches_ident (s : String) (h : s ≠ "") :
    matches_ident (chave s) = true := by
  cases hsd : s.data with
  | nil =>
    exfalso
    apply h
    cases s with
    | mk d =>
      have hd : d = [] := hsd
      rw [hd]
  | cons c cs =>
    by_cases hdig : c.isDigit
    · have hc : chave s
          = String.mk ('_' :: (subW (c :: cs)).map Char.toUpper) := by
        rw [chave, hsd]
        simp [hdig, show Char.toUpper '_' = '_' from by decide]
      rw [hc]
      show (isLabelStart '_'
          && ((subW (c :: cs)).map Char.toUpper).all isLabelChar) = true
      rw [show isLabelStart '_' = true from by decide, Bool.true_and]
      exact all_subW_toUpper (c :: cs)
    · have hc : chave s
          = String.mk (Char.toUpper (if isWordChar c then c else '_')
              :: (subW cs).map Char.toUpper) := by
        rw [chave, hsd]
        simp [hdig, subW]
      rw [hc]
      show (isLabelStart (Char.toUpper (if isWordChar c then c else '_'))
          && ((subW cs).map Char.toUpper).all isLabelChar) = true
      rw [Bool.and_eq_true]
      refine ⟨?_, all_subW_toUpper cs⟩
      by_cases hw : isWordChar c = true
      · rw [if_pos hw]
        exact isLabelStart_toUpper hw (by simpa using hdig)
      · rw [if_neg hw]
        decide

/-- C6 witness: the label of the concrete non-empty value "Analyst"
matches the identifier pattern. -/
theorem chave_matches_ident_witness :
    matches_ident (chave "Analyst") = true :=
  chave_matches_ident "Analyst" (by decide)

/-- C7: the two distinct raw values `"A-1"` and `"A 1"` canonicalize
to the same label `A_1`, and the resulting mapping holds exactly one
entry for that label, not two. -/
theorem criar_enum_collision_single_entry :
    chave "A-1" = "A_1" ∧ chave "A 1" = "A_1"
      ∧ criar_enum_dinamico [some "A-1", some "A 1"] = [("A_1", "A-1")]
      ∧ (criar_enum_dinamico [some "A-1", some "A 1"]).length = 1 :=
  ⟨by decide, by decide, by decide, by decide⟩

/-- C9: on a label collision the mapping keeps the colliding value
that comes last in the sorted order of the distinct values (each later
dict assignment overwrites the earlier one); in particular with
`"A 1"` and `"A-1"` the label `A_1` maps to `"A-1"`. -/
theorem criar_enum_collision_keeps_later :
    (∀ (valores : List (Option String)) (k : String),
        (criar_enum_dinamico valores).find? (fun p => p.1 = k)
          = ((valores_unicos valores).filter
              (fun v => chave v = k)).getLast?.map (fun v => (k, v)))
      ∧ (∀ valores : List (Option String),
          (valores_unicos valores).Pairwise (fun a b => strLeb a b = true))
      ∧ (criar_enum_dinamico [some "A 1", some "A-1"]).find?
          (fun p => p.1 = "A_1") = some ("A_1", "A-1") := by
  refine ⟨?_, valores_unicos_sorted, by decide⟩
  intro valores k
  rw [criar_enum_dinamico, membros,
    find?_membros_loop k (valores_unicos valores) []]
  cases ((valores_unicos valores).filter
      (fun v => decide (chave v = k))).getLast? with
  | none => rfl
  | some v => rfl

/-! ## Decomposition facts for the date parser -/

/-- A slash-free list is one whole field. -/
theorem splitSlash_no_slash : ∀ l : List Char, '/' ∉ l →
    splitSlash l = (l, [])
  | [], _ => rfl
  | c :: rest, h => by
    rw [splitSlash,
      if_neg (fun hc : c = '/' => h (by rw [← hc]; exact List.mem_cons_self c rest)),
      splitSlash_no_slash rest (fun hm => h (List.mem_cons_of_mem c hm))]

/-- Splitting a list that starts with a slash-free field followed by a
slash peels off that field. -/
theorem splitSlash_append : ∀ (a r : List Char), '/' ∉ a →
    splitSlash (a ++ '/' :: r)
      = (a, (splitSlash r).1 :: (splitSlash r).2)
  | [], r, _ => by
    rw [List.nil_append, splitSlash, if_pos rfl]
  | c :: a, r, h => by
    rw [List.cons_append, splitSlash,
      if_neg (fun hc : c = '/' => h (by rw [← hc]; exact List.mem_cons_self c a)),
      splitSlash_append a r (fun hm => h (List.mem_cons_of_mem c hm))]

/-- Rejoining the fields with slashes gives back the input. -/
theorem splitSlash_join : ∀ l : List Char,
    (splitSlash l).1
        ++ ((splitSlash l).2.map (fun q => '/' :: q)).flatten = l
  | [] => rfl
  | c :: rest => by
    rw [splitSlash]
    by_cases hc : c = '/'
    · rw [if_pos hc]
      simp only [List.map_cons, List.flatten_cons, List.nil_append,
        List.cons_append]
      rw [splitSlash_join rest, hc]
    · rw [if_neg hc]
      simp only [List.cons_append]
      rw [splitSlash_join rest]

/-- Digit fields contain no slash. -/
theorem all_digits_no_slash {l : List Char}
    (h : l.all Char.isDigit = true) : '/' ∉ l := by
  intro hm
  rw [List.all_eq_true] at h
  have hd := (isDigit_iff _).1 (h _ hm)
  have h47 : ('/' : Char).toNat = 47 := rfl
  omega

/-- Every month has at most 31 days. -/
theorem daysInMonth_le_31 (y m : Nat) : daysInMonth y m ≤ 31 := by
  rw [daysInMonth]
  split_ifs <;> omega

/-- The parser succeeds exactly on the month/day/year strings, and on
those returns that calendar date. -/
theorem strptimeMDY_eq_some_iff {s : String} {y m d : Nat} :
    strptimeMDY s.data = some ⟨y, m, d⟩ ↔ MDYFormat s y m d := by
  constructor
  · intro h
    rcases hsp : splitSlash s.data with ⟨pm, parts⟩
    simp only [strptimeMDY, hsp] at h
    cases parts with
    | nil => exact absurd h (by simp)
    | cons pd rest =>
      cases rest with
      | nil => exact absurd h (by simp)
      | cons py rest2 =>
        cases rest2 with
        | cons q qs => exact absurd h (by simp)
        | nil =>
          dsimp only at h
          split_ifs at h with h1 h2
          · obtain ⟨hpm, hpml, hpd, hpdl, hpy, hpyl⟩ := h1
            obtain ⟨h1m, h12, h1d, h31, h1y, hdm⟩ := h2
            rw [Option.some.injEq, PDate.mk.injEq] at h
            obtain ⟨hy, hm, hd⟩ := h
            rw [hy, hm, hd] at hdm
            refine ⟨pm, pd, py, ?_, hpm, hpml, hpd, hpdl, hpy, hpyl,
              hm, hd, hy, by omega, by omega, by omega, hdm, by omega⟩
            have hj := splitSlash_join s.data
            rw [hsp] at hj
            simp only [List.map_cons, List.map_nil, List.flatten_cons,
              List.flatten_nil, List.append_nil, List.cons_append] at hj
            rw [← hj]
  · rintro ⟨pm, pd, py, hdec, hpm, hpml, hpd, hpdl, hpy, hpyl,
      hm, hd, hy, h1m, h12, h1d, hdm, h1y⟩
    have hsp : splitSlash s.data = (pm, [pd, py]) := by
      rw [hdec, splitSlash_append pm _ (all_digits_no_slash hpm),
        splitSlash_append pd _ (all_digits_no_slash hpd),
        splitSlash_no_slash py (all_digits_no_slash hpy)]
    simp only [strptimeMDY, hsp]
    rw [hm, hd, hy]
    have h31 := daysInMonth_le_31 y m
    rw [if_pos ⟨hpm, hpml, hpd, hpdl, hpy, hpyl⟩,
      if_pos ⟨h1m, h12, h1d, by omega, h1y, hdm⟩]

/-! ## Claims about `parse_date` -/

/-- C4: `parse_date` returns the calendar date for a string in
month/day/year format (in particular `"04/20/2014"` gives 2014-04-20)
and `None` — it is a total function, never an exception — for a null
and for any string not in that exact format, so a null input and an
unparseable string produce the same output. -/
theorem parse_date_lenient :
    parse_date PdValue.null = none
      ∧ parse_date (PdValue.str "04/20/2014") = some ⟨2014, 4, 20⟩
      ∧ (∀ (s : String) (y m d : Nat), MDYFormat s y m d →
          parse_date (PdValue.str s) = some ⟨y, m, d⟩)
      ∧ (∀ s : String, (∀ y m d, ¬MDYFormat s y m d) →
          parse_date (PdValue.str s) = none)
      ∧ (∀ s : String, (∀ y m d, ¬MDYFormat s y m d) →
          parse_date (PdValue.str s) = parse_date PdValue.null) := by
  have hnone : ∀ s : String, (∀ y m d, ¬MDYFormat s y m d) →
      parse_date (PdValue.str s) = none := by
    intro s h
    cases hv : parse_date (PdValue.str s) with
    | none => rfl
    | some p =>
      exfalso
      rcases p with ⟨y, m, d⟩
      exact h y m d (strptimeMDY_eq_some_iff.1 hv)
  refine ⟨rfl, by decide, ?_, hnone, ?_⟩
  · intro s y m d h
    exact strptimeMDY_eq_some_iff.2 h
  · intro s h
    rw [hnone s h]
    rfl

/-- C10: an input that is already a `datetime` instance is returned
as its `.date()` component, not treated as unparseable. -/
theorem parse_date_datetime :
    (∀ x : PyDatetime, parse_date (PdValue.dt x) = some x.date)
      ∧ parse_date (PdValue.dt ⟨⟨2014, 4, 20⟩, 13, 30, 5⟩)
          = some ⟨2014, 4, 20⟩ :=
  ⟨fun _ => rfl, rfl⟩

/-! ## Facts about the SQL aggregates -/

/-- A fold of `min` stays among the accumulator and the folded list. -/
theorem foldl_min_mem : ∀ (xs : List ℚ) (a : ℚ),
    xs.foldl min a ∈ a :: xs
  | [], a => List.mem_singleton.2 rfl
  | x :: xs, a => by
    rw [List.foldl_cons]
    rcases min_choice a x with h | h
    · rcases List.mem_cons.1 (foldl_min_mem xs (min a x)) with hm | hm
      · exact List.mem_cons.2 (Or.inl (by rw [hm, h]))
      · exact List.mem_cons.2 (Or.inr (List.mem_cons_of_mem x hm))
    · rcases List.mem_cons.1 (foldl_min_mem xs (min a x)) with hm | hm
      · refine List.mem_cons.2 (Or.inr (List.mem_cons.2 (Or.inl ?_)))
        rw [hm, h]
      · exact List.mem_cons.2 (Or.inr (List.mem_cons_of_mem x hm))

/-- A fold of `min` is below the accumulator and every list element. -/
theorem foldl_min_le : ∀ (xs : List ℚ) (a : ℚ),
    xs.foldl min a ≤ a ∧ ∀ x ∈ xs, xs.foldl min a ≤ x
  | [], a => ⟨le_refl a, fun x hx => absurd hx (List.not_mem_nil x)⟩
  | x :: xs, a => by
    rw [List.foldl_cons]
    obtain ⟨h1, h2⟩ := foldl_min_le xs (min a x)
    refine ⟨le_trans h1 (min_le_left a x), fun y hy => ?_⟩
    rcases List.mem_cons.1 hy with rfl | hy
    · exact le_trans h1 (min_le_right a y)
    · exact h2 y hy

/-- A fold of `max` stays among the accumulator and the folded list. -/
theorem foldl_max_mem : ∀ (xs : List ℚ) (a : ℚ),
    xs.foldl max a ∈ a :: xs
  | [], a => List.mem_singleton.2 rfl
  | x :: xs, a => by
    rw [List.foldl_cons]
    rcases max_choice a x with h | h
    · rcases List.mem_cons.1 (foldl_max_mem xs (max a x)) with hm | hm
      · exact List.mem_cons.2 (Or.inl (by rw [hm, h]))
      · exact List.mem_cons.2 (Or.inr (List.mem_cons_of_mem x hm))
    · rcases List.mem_cons.1 (foldl_max_mem xs (max a x)) with hm | hm
      · refine List.mem_cons.2 (Or.inr (List.mem_cons.2 (Or.inl ?_)))
        rw [hm, h]
      · exact List.mem_cons.2 (Or.inr (List.mem_cons_of_mem x hm))

/-- A fold of `max` is above the accumulator and every list element. -/
theorem foldl_max_ge : ∀ (xs : List ℚ) (a : ℚ),
    a ≤ xs.foldl max a ∧ ∀ x ∈ xs, x ≤ xs.foldl max a
  | [], a => ⟨le_refl a, fun x hx => absurd hx (List.not_mem_nil x)⟩
  | x :: xs, a => by
    rw [List.foldl_cons]
    obtain ⟨h1, h2⟩ := foldl_max_ge xs (max a x)
    refine ⟨le_trans (le_max_left a x) h1, fun y hy => ?_⟩
    rcases List.mem_cons.1 hy with rfl | hy
    · exact le_trans (le_max_right a y) h1
    · exact h2 y hy

/-- `MIN` of a nonempty group is a group value and a lower bound. -/
theorem sqlMin_spec {l : List ℚ} (h : l ≠ []) :
    sqlMin l ∈ l ∧ ∀ x ∈ l, sqlMin l ≤ x := by
  cases l with
  | nil => exact absurd rfl h
  | cons x xs =>
    rw [sqlMin]
    obtain ⟨h1, h2⟩ := foldl_min_le xs x
    refine ⟨foldl_min_mem xs x, fun y hy => ?_⟩
    rcases List.mem_cons.1 hy with rfl | hy
    · exact h1
    · exact h2 y hy

/-- `MAX` of a nonempty group is a group value and an upper bound. -/
theorem sqlMax_spec {l : List ℚ} (h : l ≠ []) :
    sqlMax l ∈ l ∧ ∀ x ∈ l, x ≤ sqlMax l := by
  cases l with
  | nil => exact absurd rfl h
  | cons x xs =>
    rw [sqlMax]
    obtain ⟨h1, h2⟩ := foldl_max_ge xs x
    refine ⟨foldl_max_mem xs x, fun y hy => ?_⟩
    rcases List.mem_cons.1 hy with rfl | hy
    · exact h1
    · exact h2 y hy

/-- A group named by a `GROUP BY` key is nonempty. -/
theorem group_monthly_ne_nil {t : List SalaryRow} {d : String}
    (hd : d ∈ groupKeys t) : (groupOf t d).map monthly ≠ [] := by
  rw [groupKeys, List.mem_dedup, List.mem_map] at hd
  obtain ⟨r, hr, hrd⟩ := hd
  have hmem : r ∈ groupOf t d := by
    rw [groupOf, List.mem_filter]
    exact ⟨hr, by simp [hrd]⟩
  intro hnil
  rw [List.map_eq_nil_iff] at hnil
  rw [hnil] at hmem
  exact (List.not_mem_nil r) hmem

/-- A concrete "Manager" row with the given salary; the other fields
are fixed arbitrary values of the right types. -/
def managerRow (sal : ℚ) : SalaryRow :=
  ⟨"Ana", "Silva", "F", none, none, "Manager", none, sal, "IT",
    none, none, none, none⟩

/-! ## Claims about persistence and aggregation -/

/-- C8: `df.to_sql(if_exists='append')` inserts every loaded row as a
new record with no duplicate check: a store of `n` rows plus a
DataFrame of `m` rows gives `n + m` rows (each individual row's
multiplicity just adds), and running load+persist twice against the
same store doubles the inserted row count. -/
theorem to_sql_append_duplicates :
    (∀ store df : List SalaryRow, to_sql store df = store ++ df)
      ∧ (∀ store df : List SalaryRow,
          (to_sql store df).length = store.length + df.length)
      ∧ (∀ (store df : List SalaryRow) (r : SalaryRow),
          (to_sql store df).count r = store.count r + df.count r)
      ∧ (∀ store df : List SalaryRow,
          (to_sql (to_sql store df) df).length
            = store.length + 2 * df.length)
      ∧ (∀ df : List SalaryRow,
          (to_sql (to_sql [] df) df).length
            = 2 * (to_sql [] df).length) := by
  refine ⟨fun _ _ => rfl, ?_, ?_, ?_, ?_⟩
  · intro store df
    rw [to_sql, List.length_append]
  · intro store df r
    rw [to_sql, List.count_append]
  · intro store df
    rw [to_sql, to_sql, List.length_append, List.length_append]
    omega
  · intro df
    rw [to_sql, to_sql, List.nil_append, List.length_append]
    omega

/-- C2: the aggregation yields one row per distinct designation; each
row carries the minimum, maximum and arithmetic mean of that
designation's monthly salaries (`SALARY / 12`); rows come ordered by
the mean descending; and on the two rows (Manager, 120000) and
(Manager, 60000) the result is exactly min 5000, max 10000, avg 7500. -/
theorem query_sql_aggregation :
    (∀ t : List SalaryRow,
        List.Perm ((query_sql_rows t).map (fun r => r.designation))
          ((t.map (fun r => r.designation)).dedup))
      ∧ (∀ (t : List SalaryRow) (r : AggRow), r ∈ query_sql_rows t →
          r.min_monthly_salary ∈ (groupOf t r.designation).map monthly
            ∧ (∀ x ∈ (groupOf t r.designation).map monthly,
                r.min_monthly_salary ≤ x)
            ∧ r.max_monthly_salary ∈ (groupOf t r.designation).map monthly
            ∧ (∀ x ∈ (groupOf t r.designation).map monthly,
                x ≤ r.max_monthly_salary)
            ∧ r.avg_monthly_salary
                = ((groupOf t r.designation).map monthly).sum
                    / ((groupOf t r.designation).map monthly).length)
      ∧ (∀ t : List SalaryRow,
          (query_sql_rows t).Pairwise
            (fun a b => b.avg_monthly_salary ≤ a.avg_monthly_salary))
      ∧ query_sql_rows [managerRow 120000, managerRow 60000]
          = [⟨"Manager", 5000, 10000, 7500⟩] := by
  refine ⟨?_, ?_, ?_, ?_⟩
  · intro t
    have hperm :=
      (sortLe_perm
        (fun a b : AggRow =>
          decide (b.avg_monthly_salary ≤ a.avg_monthly_salary))
        ((groupKeys t).map (aggOf t))).map (fun r => r.designation)
    rw [List.map_map,
      show ((fun r : AggRow => r.designation) ∘ aggOf t) = id from
        funext fun d => rfl,
      List.map_id] at hperm
    exact hperm
  · intro t r hr
    have hr' : r ∈ (groupKeys t).map (aggOf t) :=
      (sortLe_perm _ _).mem_iff.1 hr
    rw [List.mem_map] at hr'
    obtain ⟨d, hd, rfl⟩ := hr'
    have hne : (groupOf t d).map monthly ≠ [] := group_monthly_ne_nil hd
    exact ⟨(sqlMin_spec hne).1, (sqlMin_spec hne).2,
      (sqlMax_spec hne).1, (sqlMax_spec hne).2, rfl⟩
  · intro t
    have hp := @sortLe_pairwise AggRow
      (fun a b : AggRow =>
        decide (b.avg_monthly_salary ≤ a.avg_monthly_salary))
      (fun a b => by
        rcases le_total b.avg_monthly_salary a.avg_monthly_salary with h | h
        · exact Or.inl (decide_eq_true h)
        · exact Or.inr (decide_eq_true h))
      (fun a b c h1 h2 => decide_eq_true
        (le_trans (of_decide_eq_true h2) (of_decide_eq_true h1)))
      ((groupKeys t).map (aggOf t))
    exact hp.imp (fun h => of_decide_eq_true h)
  · norm_num [query_sql_rows, groupKeys, managerRow, aggOf, groupOf,
      monthly, sqlMin, sqlMax, sqlAvg, sortLe, insertLe, List.dedup]

/-- C1: the three aggregation paths produce the identical ordered
sequence of (designation, min, max, avg) results: the composed ORM
`stmt` equals the direct SQL `query_sql`, and the materialized
`read_sql_query` rows are exactly that shared sequence as tuples. -/
theorem three_paths_equal :
    (∀ t : List SalaryRow, stmt_rows t = query_sql_rows t)
      ∧ (∀ t : List SalaryRow,
          read_sql_query_rows t
            = (query_sql_rows t).map
                (fun r => (r.designation, r.min_monthly_salary,
                  r.max_monthly_salary, r.avg_monthly_salary)))
      ∧ (∀ t : List SalaryRow,
          read_sql_query_rows t
            = (stmt_rows t).map
                (fun r => (r.designation, r.min_monthly_salary,
                  r.max_monthly_salary, r.avg_monthly_salary))) := by
  have hstmt : ∀ t : List SalaryRow, stmt_rows t = query_sql_rows t := by
    intro t
    rw [stmt_rows, query_sql_rows,
      sortLe_map _ _
        (fun a b : AggRow =>
          decide (b.avg_monthly_salary ≤ a.avg_monthly_salary))
        (fun a b => rfl)]
    congr 1
  exact ⟨hstmt, fun t => rfl, fun t => by rw [hstmt t]; rfl⟩
